import Mathlib

/-!
Verification of the settings-synchronization and URL-normalization logic of
`launcher/ui/pages/global/APIPage.cpp` (PrismLauncher).

The C++ file delegates URL handling to Qt's `QUrl`.  We embed the behavior of
`QUrl` that `verifyUrl` depends on at component granularity: a URL is parsed
into scheme, authority, path, query and fragment; the scheme is lowercased on
parse (as `QUrl` does); `toString` reassembles the components.  Percent
encoding normalization, whitespace trimming and host-case normalization are
outside the granularity of this model.  All other definitions (`loadSettings`,
`applySettings`, `apply`, the refresh-button handlers) are translated directly
from the C++ source.
-/

namespace APIPageModel

/-- A parsed URL, mirroring the `QUrl` components that `verifyUrl` touches:
scheme (`qUrl.scheme()`), authority (userinfo\@host:port as raw text),
path (`qUrl.path()`), query and fragment. -/
structure UrlModel where
  scheme : Option (List Char)
  authority : Option (List Char)
  path : List Char
  query : Option (List Char)
  fragment : Option (List Char)
deriving DecidableEq

/-- The ASCII letters, the characters allowed to start a scheme. -/
def alphaChars : List Char :=
  ['a', 'b', 'c', 'd', 'e', 'f', 'g', 'h', 'i', 'j', 'k', 'l', 'm',
   'n', 'o', 'p', 'q', 'r', 's', 't', 'u', 'v', 'w', 'x', 'y', 'z',
   'A', 'B', 'C', 'D', 'E', 'F', 'G', 'H', 'I', 'J', 'K', 'L', 'M',
   'N', 'O', 'P', 'Q', 'R', 'S', 'T', 'U', 'V', 'W', 'X', 'Y', 'Z']

/-- The characters allowed inside a URL scheme (RFC 3986, as accepted by
`QUrl::setScheme` and the `QUrl` parser): letters, digits, plus, minus, dot. -/
def schemeChars : List Char :=
  ['a', 'b', 'c', 'd', 'e', 'f', 'g', 'h', 'i', 'j', 'k', 'l', 'm',
   'n', 'o', 'p', 'q', 'r', 's', 't', 'u', 'v', 'w', 'x', 'y', 'z',
   'A', 'B', 'C', 'D', 'E', 'F', 'G', 'H', 'I', 'J', 'K', 'L', 'M',
   'N', 'O', 'P', 'Q', 'R', 'S', 'T', 'U', 'V', 'W', 'X', 'Y', 'Z',
   '0', '1', '2', '3', '4', '5', '6', '7', '8', '9', '+', '-', '.']

def isAlphaChar (c : Char) : Bool := decide (c ∈ alphaChars)

def isSchemeChar (c : Char) : Bool := decide (c ∈ schemeChars)

/-- ASCII lowercasing of the letters, as `QUrl` applies to schemes. -/
def lc (c : Char) : Char :=
  if c == 'A' then 'a' else if c == 'B' then 'b' else if c == 'C' then 'c'
  else if c == 'D' then 'd' else if c == 'E' then 'e' else if c == 'F' then 'f'
  else if c == 'G' then 'g' else if c == 'H' then 'h' else if c == 'I' then 'i'
  else if c == 'J' then 'j' else if c == 'K' then 'k' else if c == 'L' then 'l'
  else if c == 'M' then 'm' else if c == 'N' then 'n' else if c == 'O' then 'o'
  else if c == 'P' then 'p' else if c == 'Q' then 'q' else if c == 'R' then 'r'
  else if c == 'S' then 's' else if c == 'T' then 't' else if c == 'U' then 'u'
  else if c == 'V' then 'v' else if c == 'W' then 'w' else if c == 'X' then 'x'
  else if c == 'Y' then 'y' else if c == 'Z' then 'z' else c

/-- Split a character list at the first character satisfying `p`; the stop
character (if any) is kept at the head of the second component. -/
def splitUntil (p : Char → Bool) : List Char → List Char × List Char
  | [] => ([], [])
  | c :: cs =>
    if p c then ([], c :: cs)
    else ((c :: (splitUntil p cs).1), (splitUntil p cs).2)

def colonStop (c : Char) : Bool := c == ':'

def authStop (c : Char) : Bool := c == '/' || c == '?' || c == '#'

def qfStop (c : Char) : Bool := c == '?' || c == '#'

def hashStop (c : Char) : Bool := c == '#'

def splitOnColon : List Char → List Char × List Char := splitUntil colonStop

def splitOnAuth : List Char → List Char × List Char := splitUntil authStop

def splitOnQF : List Char → List Char × List Char := splitUntil qfStop

def splitOnHash : List Char → List Char × List Char := splitUntil hashStop

/-- A scheme candidate is acceptable when it is non-empty, starts with a
letter and uses only scheme characters (the `QUrl` scheme grammar). -/
def schemeCheck (s : List Char) : Bool :=
  (match s with | [] => false | c :: _ => isAlphaChar c) && s.all isSchemeChar

/-- Parse a leading `scheme:` prefix.  Returns the lowercased scheme and the
remainder, or `none` when the text before the first `:` is not a wellformed
scheme (then `QUrl` treats the whole input as scheme-less). -/
def parseScheme (l : List Char) : Option (List Char × List Char) :=
  match (splitOnColon l).2 with
  | ':' :: r => if schemeCheck (splitOnColon l).1
                then some ((splitOnColon l).1.map lc, r)
                else none
  | _ => none

/-- Whether a character list starts with two slashes. -/
def startsSlashSlash : List Char → Bool
  | c1 :: c2 :: _ => c1 == '/' && c2 == '/'
  | _ => false

/-- Parse a leading `//authority` part: present exactly when the text starts
with two slashes, extending to the next `/`, `?` or `#`. -/
def parseAuth (l : List Char) : Option (List Char) × List Char :=
  if startsSlashSlash l then
    (some (splitOnAuth (l.drop 2)).1, (splitOnAuth (l.drop 2)).2)
  else (none, l)

/-- Parse the trailing `?query` and `#fragment` parts.  After a `?`, the query
runs to the first `#`; the dropped head of the second split component can only
be that `#`, so matching any cons there is exact. -/
def parseQF (l : List Char) : Option (List Char) × Option (List Char) :=
  match l with
  | [] => (none, none)
  | c :: r =>
    if c == '?' then
      (some (splitOnHash r).1,
       match (splitOnHash r).2 with | _ :: f => some f | [] => none)
    else if c == '#' then (none, some r)
    else (none, none)

/-- Parse everything after the scheme: authority, then path, then query and
fragment. -/
def parseRest (sch : Option (List Char)) (r : List Char) : UrlModel :=
  ⟨sch, (parseAuth r).1, (splitOnQF (parseAuth r).2).1,
   (parseQF (splitOnQF (parseAuth r).2).2).1,
   (parseQF (splitOnQF (parseAuth r).2).2).2⟩

/-- Parse a URL string into components, as `QUrl`'s constructor does for the
inputs within this model's granularity. -/
def parseUrl (l : List Char) : UrlModel :=
  match parseScheme l with
  | some sr => parseRest (some sr.1) sr.2
  | none => parseRest none l

/-- The serialized `?query#fragment` tail. -/
def qfText (q f : Option (List Char)) : List Char :=
  (match q with | some qs => '?' :: qs | none => []) ++
  (match f with | some fs => '#' :: fs | none => [])

/-- The serialized `scheme:` head. -/
def schemeText (u : UrlModel) : List Char :=
  match u.scheme with | some s => s ++ [':'] | none => []

/-- The serialized `//authority` part. -/
def authText (u : UrlModel) : List Char :=
  match u.authority with | some a => '/' :: '/' :: a | none => []

/-- Reassemble a URL from components (`QUrl::toString`). -/
def serializeUrl (u : UrlModel) : List Char :=
  schemeText u ++ authText u ++ u.path ++ qfText u.query u.fragment

/-- `QUrl::isEmpty`: the URL carries no data in any component. -/
def urlIsEmptyB (u : UrlModel) : Bool :=
  u.scheme.isNone && u.authority.isNone && u.path.isEmpty &&
  u.query.isNone && u.fragment.isNone

/-- `QString::endsWith('/')` on a path. -/
def endsSlash (l : List Char) : Bool := l.getLast? == some '/'

def httpChars : List Char := ['h', 't', 't', 'p']

def httpsChars : List Char := ['h', 't', 't', 'p', 's']

/-- First half of `verifyUrl`: if the URL is non-empty and its path does not
end with `/`, append a `/` to the path. -/
def addSlash (u : UrlModel) : UrlModel :=
  if !(urlIsEmptyB u) && !(endsSlash u.path) then
    { u with path := u.path ++ ['/'] }
  else u

/-- Second half of `verifyUrl`: if the URL is non-empty and its scheme is
exactly `http`, replace the scheme by `https`. -/
def httpsUpgrade (u : UrlModel) : UrlModel :=
  if !(urlIsEmptyB u) && (u.scheme == some httpChars) then
    { u with scheme := some httpsChars }
  else u

/-- `verifyUrl` on character lists: parse, add the trailing slash, upgrade
`http` to `https`, serialize. -/
def verifyUrlCore (l : List Char) : List Char :=
  serializeUrl (httpsUpgrade (addSlash (parseUrl l)))

/-- The free function `verifyUrl` of APIPage.cpp (the spec's `normalizeUrl`). -/
def verifyUrl (s : String) : String := String.mk (verifyUrlCore s.data)

/-! ### Canonical component values

`canonicalB` captures the shape of component records that arise from parsing:
on such records `parseUrl` is a left inverse of `serializeUrl`. -/

def noAuthStopB (c : Char) : Bool := !(authStop c)

def noQFB (c : Char) : Bool := !(qfStop c)

/-- Path/authority compatibility: with an authority the path is empty or
absolute; without one the path must not look like the start of an authority. -/
def pathAuthOk (u : UrlModel) : Bool :=
  match u.authority with
  | some _ => (match u.path with | [] => true | c :: _ => c == '/')
  | none => !(startsSlashSlash u.path)

/-- Without scheme and authority, the serialized remainder must not itself
parse as a `scheme:` prefix. -/
def noSchemeLook (u : UrlModel) : Bool :=
  match u.scheme, u.authority with
  | none, none => !(parseScheme (u.path ++ qfText u.query u.fragment)).isSome
  | _, _ => true

/-- A stored scheme is wellformed and already lowercased. -/
def schemeOkB (s : List Char) : Bool := schemeCheck s && (s.map lc == s)

def canonicalB (u : UrlModel) : Bool :=
  (match u.scheme with | some s => schemeOkB s | none => true) &&
  (match u.authority with | some a => a.all noAuthStopB | none => true) &&
  u.path.all noQFB &&
  (match u.query with | some q => q.all (fun c => !(hashStop c)) | none => true) &&
  pathAuthOk u && noSchemeLook u

/-! ### Settings model

Translation of `APIPage::loadSettings`, `APIPage::applySettings`,
`APIPage::apply` and the refresh-button handlers.  The settings store is the
record of the nine keys this page reads and writes. -/

/-- The paste-service kinds the combo box offers (`PasteUpload::PasteType`). -/
inductive PasteType where
  | Mclogs
  | NullPointer
  | PasteGG
  | Hastebin
deriving DecidableEq

/-- Modelled from the spec: the numeric values of `PasteUpload::PasteType`
live in `PasteUpload.h`, outside the given source; the spec only fixes the
four recognized kinds with `Mclogs` as the default.  The properties proved
here depend only on this assignment being injective. -/
def encodePasteType : PasteType → Int
  | .NullPointer => 0
  | .Hastebin => 1
  | .Mclogs => 2
  | .PasteGG => 3

/-- `QComboBox::findData` over the four entries: recovers the kind whose
code matches, `none` when no entry matches (findData returns -1). -/
def decodePasteType (n : Int) : Option PasteType :=
  if n = 0 then some .NullPointer
  else if n = 1 then some .Hastebin
  else if n = 2 then some .Mclogs
  else if n = 3 then some .PasteGG
  else none

/-- The settings store, restricted to the keys APIPage reads and writes. -/
structure Store where
  pastebinType : Int
  pastebinCustomAPIBase : String
  msaClientIDOverride : String
  metaURLOverride : String
  minecraftResourceURLOverride : String
  minecraftLibrariesURLOverride : String
  flameKeyOverride : String
  modrinthToken : String
  userAgentOverride : String
deriving DecidableEq

/-- The editable form fields of the page. -/
structure FormFields where
  pasteType : PasteType
  baseURL : String
  msaClientID : String
  metaURL : String
  resourceURL : String
  librariesURL : String
  flameKey : String
  modrinthToken : String
  userAgent : String
deriving DecidableEq

/-- `APIPage::loadSettings`: read every key into the form; when the stored
paste type is not among the combo entries (`findData` gives -1), select
`Mclogs` and clear the custom base URL. -/
def loadSettings (s : Store) : FormFields :=
  { pasteType := match decodePasteType s.pastebinType with
      | some t => t
      | none => .Mclogs
    baseURL := match decodePasteType s.pastebinType with
      | some _ => s.pastebinCustomAPIBase
      | none => ""
    msaClientID := s.msaClientIDOverride
    metaURL := s.metaURLOverride
    resourceURL := s.minecraftResourceURLOverride
    librariesURL := s.minecraftLibrariesURLOverride
    flameKey := s.flameKeyOverride
    modrinthToken := s.modrinthToken
    userAgent := s.userAgentOverride }

/-- `APIPage::applySettings`: write every key back; only the three
Minecraft-service URLs go through `verifyUrl`. -/
def applySettings (f : FormFields) (s : Store) : Store :=
  { s with
    pastebinType := encodePasteType f.pasteType
    pastebinCustomAPIBase := f.baseURL
    msaClientIDOverride := f.msaClientID
    metaURLOverride := verifyUrl f.metaURL
    minecraftResourceURLOverride := verifyUrl f.resourceURL
    minecraftLibrariesURLOverride := verifyUrl f.librariesURL
    flameKeyOverride := f.flameKey
    modrinthToken := f.modrinthToken
    userAgentOverride := f.userAgent }

/-- `APIPage::apply`: run `applySettings`, then report success. -/
def apply (f : FormFields) (s : Store) : Bool × Store :=
  (true, applySettings f s)

/-- Observable state of the refresh control: the form, whether the button is
enabled (enabled = Idle, disabled = InFlight), its label, and how many
`downloadAndApplyProperties` requests have been started. -/
structure PageState where
  fields : FormFields
  btnEnabled : Bool
  btnText : String
  started : Nat
deriving DecidableEq

def applyBtnText : String := "Download and Apply Properties in the Meta Server"

def downloadingBtnText : String := "Downloading and Applying..."

/-- `APIPage::on_applyPropertiesBtn_clicked`: only when the button is
enabled, mark it busy, disable it and start one request. -/
def clickApplyProperties (st : PageState) : PageState :=
  if st.btnEnabled then
    { st with btnText := downloadingBtnText, btnEnabled := false,
              started := st.started + 1 }
  else st

/-- The `succeededApplyProperties` handler: reload the form from the store,
re-enable the button, restore its label. -/
def onSucceededApplyProperties (st : PageState) (s : Store) : PageState :=
  { st with fields := loadSettings s, btnEnabled := true, btnText := applyBtnText }

/-- The `failedApplyProperties` handler: show the reasons, re-enable the
button, restore its label; the form is not touched. -/
def onFailedApplyProperties (st : PageState) (reasons : String) : PageState :=
  { st with btnEnabled := true, btnText := applyBtnText }

/-! ### Splitting lemmas -/

theorem splitUntil_append_eq (p : Char → Bool) (l : List Char) :
    (splitUntil p l).1 ++ (splitUntil p l).2 = l := by
  induction l with
  | nil => rfl
  | cons c cs ih =>
    simp only [splitUntil]
    split
    · rfl
    · simpa using ih

theorem splitUntil_fst_all (p : Char → Bool) (l : List Char) :
    ∀ c ∈ (splitUntil p l).1, p c = false := by
  induction l with
  | nil => intro d hd; simp [splitUntil] at hd
  | cons c cs ih =>
    simp only [splitUntil]
    split
    · intro d hd; simp at hd
    · next h =>
      intro d hd
      rcases List.mem_cons.mp hd with rfl | hd
      · simpa using h
      · exact ih d hd

theorem splitUntil_snd_cases (p : Char → Bool) (l : List Char) :
    (splitUntil p l).2 = [] ∨
      ∃ c cs, (splitUntil p l).2 = c :: cs ∧ p c = true := by
  induction l with
  | nil => left; rfl
  | cons c cs ih =>
    simp only [splitUntil]
    split
    · next h => right; exact ⟨c, cs, rfl, h⟩
    · exact ih

theorem splitUntil_append (p : Char → Bool) (a b : List Char)
    (h1 : ∀ c ∈ a, p c = false)
    (h2 : b = [] ∨ ∃ c cs, b = c :: cs ∧ p c = true) :
    splitUntil p (a ++ b) = (a, b) := by
  induction a with
  | nil =>
    rcases h2 with rfl | ⟨c, cs, rfl, hc⟩
    · rfl
    · simp [splitUntil, hc]
  | cons x xs ih =>
    have hx : p x = false := h1 x (List.mem_cons_self x xs)
    have ih2 := ih (fun c hc => h1 c (List.mem_cons_of_mem _ hc))
    simp [splitUntil, hx, ih2]

/-! ### Character class facts -/

theorem schemeChar_facts : ∀ c ∈ schemeChars,
    isSchemeChar (lc c) = true ∧ lc (lc c) = lc c ∧
    (isAlphaChar c = true → isAlphaChar (lc c) = true) ∧
    c ≠ ':' ∧ c ≠ '/' ∧ c ≠ '?' ∧ c ≠ '#' := by decide

theorem alpha_sub_scheme : ∀ c ∈ alphaChars, isSchemeChar c = true := by decide

theorem mem_of_isSchemeChar {c : Char} (h : isSchemeChar c = true) :
    c ∈ schemeChars := of_decide_eq_true h

theorem isSchemeChar_of_isAlphaChar {c : Char} (h : isAlphaChar c = true) :
    isSchemeChar c = true :=
  alpha_sub_scheme c (of_decide_eq_true h)

theorem not_colon_of_isSchemeChar {c : Char} (h : isSchemeChar c = true) :
    colonStop c = false := by
  have := (schemeChar_facts c (mem_of_isSchemeChar h)).2.2.2.1
  simp [colonStop, this]

/-! ### parseScheme lemmas -/

theorem schemeCheck_all {s : List Char} (h : schemeCheck s = true) :
    ∀ c ∈ s, isSchemeChar c = true := by
  have := (Bool.and_eq_true _ _).mp h
  exact List.all_eq_true.mp this.2

theorem parseScheme_append (pre r : List Char) (h : schemeCheck pre = true) :
    parseScheme (pre ++ ':' :: r) = some (pre.map lc, r) := by
  have hsplit : splitOnColon (pre ++ ':' :: r) = (pre, ':' :: r) :=
    splitUntil_append _ _ _
      (fun c hc => not_colon_of_isSchemeChar (schemeCheck_all h c hc))
      (Or.inr ⟨':', r, rfl, by decide⟩)
  simp [parseScheme, hsplit, h]

theorem parseScheme_cons_none (c : Char) (l : List Char)
    (h1 : isSchemeChar c = false) (h2 : colonStop c = false) :
    parseScheme (c :: l) = none := by
  have halpha : isAlphaChar c = false := by
    cases ha : isAlphaChar c
    · rfl
    · exact absurd (isSchemeChar_of_isAlphaChar ha) (by simp [h1])
  have hcheck : schemeCheck (c :: (splitUntil colonStop l).1) = false := by
    simp [schemeCheck, halpha]
  rcases splitUntil_snd_cases colonStop l with hnil | ⟨d, ds, hd, hstop⟩
  · simp [parseScheme, splitOnColon, splitUntil, h2, hnil]
  · have hd2 : d = ':' := by simpa [colonStop] using hstop
    subst hd2
    simp [parseScheme, splitOnColon, splitUntil, h2, hd, hcheck]

theorem parseScheme_some_ex (l : List Char)
    (h : (parseScheme l).isSome = true) :
    ∃ pre r, l = pre ++ ':' :: r ∧ schemeCheck pre = true ∧
      parseScheme l = some (pre.map lc, r) := by
  have hl : (splitOnColon l).1 ++ (splitOnColon l).2 = l :=
    splitUntil_append_eq _ _
  rcases splitUntil_snd_cases colonStop l with hnil | ⟨d, ds, hd, hstop⟩
  · exfalso
    rw [parseScheme] at h
    rw [show splitOnColon l = splitUntil colonStop l from rfl] at h
    rw [hnil] at h
    simp at h
  · have hd2 : d = ':' := by simpa [colonStop] using hstop
    subst hd2
    have hd3 : (splitOnColon l).2 = ':' :: ds := hd
    by_cases hc : schemeCheck (splitOnColon l).1 = true
    · refine ⟨(splitOnColon l).1, ds, ?_, hc, ?_⟩
      · conv_lhs => rw [← hl]
        rw [hd3]
      · rw [parseScheme, hd3]
        simp [hc]
    · exfalso
      rw [parseScheme, hd3] at h
      simp [hc] at h

theorem parseScheme_insert_slash (p qf : List Char)
    (h : parseScheme (p ++ qf) = none) :
    parseScheme (p ++ '/' :: qf) = none := by
  cases hres : parseScheme (p ++ '/' :: qf) with
  | none => rfl
  | some v =>
    exfalso
    have hsome : (parseScheme (p ++ '/' :: qf)).isSome = true := by
      rw [hres]; rfl
    obtain ⟨pre, r, heq, hcheck, _⟩ := parseScheme_some_ex _ hsome
    have hprechars : ∀ c ∈ pre, isSchemeChar c = true := schemeCheck_all hcheck
    rcases List.append_eq_append_iff.mp heq with ⟨a2, ha1, ha2⟩ | ⟨c2, hc1, hc2⟩
    · cases a2 with
      | nil => simp at ha2
      | cons x xs =>
        rw [List.cons_append] at ha2
        injection ha2 with h1 _
        have hmem : x ∈ pre := by
          rw [ha1]; exact List.mem_append_right _ (List.mem_cons_self _ _)
        have := hprechars x hmem
        rw [← h1] at this
        exact absurd this (by decide)
    · cases c2 with
      | nil => simp at hc2
      | cons y ys =>
        rw [List.cons_append] at hc2
        injection hc2 with h1 h2
        have hp : p = pre ++ ':' :: ys := by rw [hc1, ← h1]
        have : parseScheme (p ++ qf) = some (pre.map lc, ys ++ qf) := by
          rw [hp, List.append_assoc, List.cons_append]
          exact parseScheme_append pre (ys ++ qf) hcheck
        rw [this] at h
        exact Option.noConfusion h

/-! ### startsSlashSlash and parseAuth lemmas -/

theorem ss_single (c : Char) : startsSlashSlash [c] = false := rfl

theorem ss_cons_cons (c1 c2 : Char) (rest : List Char) :
    startsSlashSlash (c1 :: c2 :: rest) = (c1 == '/' && c2 == '/') := rfl

theorem ss_cons_ne (c : Char) (h : (c == '/') = false) (t : List Char) :
    startsSlashSlash (c :: t) = false := by
  rcases t with _ | ⟨d, ds⟩
  · exact ss_single c
  · rw [ss_cons_cons, h, Bool.false_and]

theorem ss_of_append_left (p x : List Char) (h : startsSlashSlash p = true) :
    startsSlashSlash (p ++ x) = true := by
  rcases p with _ | ⟨c1, _ | ⟨c2, rest⟩⟩
  · exact absurd h (by simp [startsSlashSlash])
  · exact absurd h (by simp [ss_single])
  · rw [List.cons_append, List.cons_append, ss_cons_cons]
    rw [ss_cons_cons] at h
    exact h

/-- The serialized query/fragment tail is empty or starts with `?` or `#`. -/
theorem qfText_cases (q f : Option (List Char)) :
    qfText q f = [] ∨
      ∃ c cs, qfText q f = c :: cs ∧ qfStop c = true ∧ authStop c = true := by
  cases q with
  | some qs =>
    exact Or.inr ⟨'?', qs ++ (match f with | some fs => '#' :: fs | none => []),
      by simp [qfText], by decide, by decide⟩
  | none =>
    cases f with
    | some fs => exact Or.inr ⟨'#', fs, by simp [qfText], by decide, by decide⟩
    | none => exact Or.inl rfl

theorem ss_path_qf (path : List Char) (q f : Option (List Char))
    (h : startsSlashSlash path = false) :
    startsSlashSlash (path ++ qfText q f) = false := by
  rcases path with _ | ⟨c1, _ | ⟨c2, rest⟩⟩
  · rcases qfText_cases q f with hq | ⟨c, cs, hq, hstop, _⟩
    · simp [hq, startsSlashSlash]
    · rw [List.nil_append, hq]
      have hc : (c == '/') = false := by
        simp [qfStop] at hstop
        rcases hstop with rfl | rfl <;> decide
      exact ss_cons_ne c hc cs
  · rw [List.cons_append]
    rcases qfText_cases q f with hq | ⟨c, cs, hq, hstop, _⟩
    · rw [hq, List.nil_append]; exact ss_single c1
    · rw [hq, List.nil_append, ss_cons_cons]
      have hc : (c == '/') = false := by
        simp [qfStop] at hstop
        rcases hstop with rfl | rfl <;> decide
      rw [hc, Bool.and_false]
  · rw [List.cons_append, List.cons_append, ss_cons_cons]
    rw [ss_cons_cons] at h
    exact h

theorem parseAuth_ss (r : List Char) :
    parseAuth ('/' :: '/' :: r) = (some (splitOnAuth r).1, (splitOnAuth r).2) := by
  simp [parseAuth, ss_cons_cons]

theorem parseAuth_not_ss (l : List Char) (h : startsSlashSlash l = false) :
    parseAuth l = (none, l) := by
  simp [parseAuth, h]

/-! ### parseQF lemmas -/

theorem parseQF_qfText (q f : Option (List Char))
    (hq : ∀ qs, q = some qs → ∀ c ∈ qs, hashStop c = false) :
    parseQF (qfText q f) = (q, f) := by
  cases q with
  | none => cases f with
    | none => rfl
    | some fs => rfl
  | some qs =>
    have hqs := hq qs rfl
    cases f with
    | none =>
      have hsplit : splitOnHash qs = (qs, []) := by
        have h0 := splitUntil_append hashStop qs [] hqs (Or.inl rfl)
        simpa using h0
      have hqf : qfText (some qs) none = '?' :: qs := by simp [qfText]
      rw [hqf, parseQF]
      simp [hsplit]
    | some fs =>
      have hsplit : splitOnHash (qs ++ '#' :: fs) = (qs, '#' :: fs) :=
        splitUntil_append hashStop qs ('#' :: fs) hqs
          (Or.inr ⟨'#', fs, rfl, by decide⟩)
      have hqf : qfText (some qs) (some fs) = '?' :: (qs ++ '#' :: fs) := by
        simp [qfText]
      rw [hqf, parseQF]
      simp [hsplit]

theorem parseQF_reconstruct (r3 : List Char)
    (h : r3 = [] ∨ ∃ c cs, r3 = c :: cs ∧ qfStop c = true) :
    qfText (parseQF r3).1 (parseQF r3).2 = r3 := by
  rcases h with rfl | ⟨c, cs, rfl, hstop⟩
  · rfl
  · have hc : c = '?' ∨ c = '#' := by
      simp [qfStop] at hstop
      tauto
    have hsp : (splitOnHash cs).1 ++ (splitOnHash cs).2 = cs :=
      splitUntil_append_eq _ _
    rcases hc with rfl | rfl
    · rcases splitUntil_snd_cases hashStop cs with hnil | ⟨d, ds, hd, hds⟩
      · have hd3 : (splitOnHash cs).2 = ([] : List Char) := hnil
        have hfst : (splitOnHash cs).1 = cs := by
          have h0 := hsp
          rw [hd3, List.append_nil] at h0
          exact h0
        simp [parseQF, hd3, hfst, qfText]
      · have hd4 : d = '#' := by simpa [hashStop] using hds
        subst hd4
        have hd3 : (splitOnHash cs).2 = '#' :: ds := hd
        have hcs : (splitOnHash cs).1 ++ '#' :: ds = cs := by
          rw [← hd3]; exact hsp
        simp [parseQF, hd3, qfText, hcs]
    · simp [parseQF, qfText]

theorem parseQF_query_all (r3 : List Char) :
    ∀ qs, (parseQF r3).1 = some qs → ∀ c ∈ qs, hashStop c = false := by
  intro qs hqs c hc
  rcases r3 with _ | ⟨d, ds⟩
  · simp [parseQF] at hqs
  · simp only [parseQF] at hqs
    by_cases hd : (d == '?') = true
    · rw [if_pos hd] at hqs
      have hfst : (splitOnHash ds).1 = qs := by simpa using hqs
      rw [← hfst] at hc
      exact splitUntil_fst_all hashStop ds c hc
    · rw [if_neg hd] at hqs
      by_cases hd2 : (d == '#') = true
      · rw [if_pos hd2] at hqs; simp at hqs
      · rw [if_neg hd2] at hqs; simp at hqs

/-! ### Serialization shapes -/

theorem serializeUrl_some_some (s a path : List Char) (q f : Option (List Char)) :
    serializeUrl ⟨some s, some a, path, q, f⟩ =
      s ++ ':' :: ('/' :: '/' :: (a ++ (path ++ qfText q f))) := by
  simp [serializeUrl, schemeText, authText]

theorem serializeUrl_some_none (s path : List Char) (q f : Option (List Char)) :
    serializeUrl ⟨some s, none, path, q, f⟩ = s ++ ':' :: (path ++ qfText q f) := by
  simp [serializeUrl, schemeText, authText]

theorem serializeUrl_none_some (a path : List Char) (q f : Option (List Char)) :
    serializeUrl ⟨none, some a, path, q, f⟩ =
      '/' :: '/' :: (a ++ (path ++ qfText q f)) := by
  simp [serializeUrl, schemeText, authText]

theorem serializeUrl_none_none (path : List Char) (q f : Option (List Char)) :
    serializeUrl ⟨none, none, path, q, f⟩ = path ++ qfText q f := by
  simp [serializeUrl, schemeText, authText]

/-! ### Round trip: parse after serialize -/

theorem qfText_head (q f : Option (List Char)) :
    qfText q f = [] ∨ ∃ c cs, qfText q f = c :: cs ∧ qfStop c = true := by
  rcases qfText_cases q f with h0 | ⟨c, cs, h0, hstop, _⟩
  · exact Or.inl h0
  · exact Or.inr ⟨c, cs, h0, hstop⟩

theorem parseRest_round_auth (sch : Option (List Char)) (a path : List Char)
    (q f : Option (List Char))
    (ha : ∀ c ∈ a, authStop c = false)
    (hpath : ∀ c ∈ path, qfStop c = false)
    (hq : ∀ qs, q = some qs → ∀ c ∈ qs, hashStop c = false)
    (hpa : path = [] ∨ ∃ pp, path = '/' :: pp) :
    parseRest sch ('/' :: '/' :: (a ++ (path ++ qfText q f))) =
      ⟨sch, some a, path, q, f⟩ := by
  have hbcase : path ++ qfText q f = [] ∨
      ∃ c cs, path ++ qfText q f = c :: cs ∧ authStop c = true := by
    rcases hpa with rfl | ⟨pp, rfl⟩
    · rcases qfText_cases q f with hq0 | ⟨c, cs, hq0, _, hstop2⟩
      · left; simp [hq0]
      · right; exact ⟨c, cs, by simp [hq0], hstop2⟩
    · right; exact ⟨'/', pp ++ qfText q f, by simp, by decide⟩
  have hauth : splitOnAuth (a ++ (path ++ qfText q f)) = (a, path ++ qfText q f) :=
    splitUntil_append authStop _ _ ha hbcase
  have hpq : splitOnQF (path ++ qfText q f) = (path, qfText q f) :=
    splitUntil_append qfStop _ _ hpath (qfText_head q f)
  have hqf : parseQF (qfText q f) = (q, f) := parseQF_qfText q f hq
  rw [parseRest, parseAuth_ss, hauth]
  simp [hpq, hqf]

theorem parseRest_round_noauth (sch : Option (List Char)) (path : List Char)
    (q f : Option (List Char))
    (hpath : ∀ c ∈ path, qfStop c = false)
    (hq : ∀ qs, q = some qs → ∀ c ∈ qs, hashStop c = false)
    (hss : startsSlashSlash path = false) :
    parseRest sch (path ++ qfText q f) = ⟨sch, none, path, q, f⟩ := by
  have hna : parseAuth (path ++ qfText q f) = (none, path ++ qfText q f) :=
    parseAuth_not_ss _ (ss_path_qf path q f hss)
  have hpq : splitOnQF (path ++ qfText q f) = (path, qfText q f) :=
    splitUntil_append qfStop _ _ hpath (qfText_head q f)
  have hqf : parseQF (qfText q f) = (q, f) := parseQF_qfText q f hq
  rw [parseRest, hna]
  simp [hpq, hqf]

theorem parse_serialize (u : UrlModel) (h : canonicalB u = true) :
    parseUrl (serializeUrl u) = u := by
  obtain ⟨sch, auth, path, q, f⟩ := u
  simp only [canonicalB, Bool.and_eq_true] at h
  obtain ⟨⟨⟨⟨⟨hsch, hauth⟩, hpath⟩, hq⟩, hpa⟩, hlook⟩ := h
  have hpath2 : ∀ c ∈ path, qfStop c = false := by
    intro c hc
    have h0 := List.all_eq_true.mp hpath c hc
    simpa [noQFB] using h0
  have hq2 : ∀ qs, q = some qs → ∀ c ∈ qs, hashStop c = false := by
    intro qs hqs c hc
    subst hqs
    have h1 : (qs.all fun c => !(hashStop c)) = true := hq
    have h0 := List.all_eq_true.mp h1 c hc
    simpa using h0
  cases sch with
  | some s =>
    have hok : schemeOkB s = true := hsch
    have hcheck : schemeCheck s = true := ((Bool.and_eq_true _ _).mp hok).1
    have hlc : s.map lc = s := by
      have h0 := ((Bool.and_eq_true _ _).mp hok).2
      simpa using h0
    cases auth with
    | some a =>
      have ha2 : ∀ c ∈ a, authStop c = false := by
        intro c hc
        have h1 : (a.all noAuthStopB) = true := hauth
        have h0 := List.all_eq_true.mp h1 c hc
        simpa [noAuthStopB] using h0
      have hpa2 : path = [] ∨ ∃ pp, path = '/' :: pp := by
        rcases path with _ | ⟨c, cs⟩
        · exact Or.inl rfl
        · right
          have h1 : (match (c :: cs : List Char) with
              | [] => true | c :: _ => c == '/') = true := hpa
          have h2 : (c == '/') = true := h1
          rw [beq_iff_eq] at h2
          exact ⟨cs, by rw [h2]⟩
      rw [serializeUrl_some_some, parseUrl, parseScheme_append s _ hcheck]
      dsimp only
      rw [hlc]
      exact parseRest_round_auth (some s) a path q f ha2 hpath2 hq2 hpa2
    | none =>
      have hss : startsSlashSlash path = false := by
        have h1 : pathAuthOk ⟨some s, none, path, q, f⟩ = true := hpa
        simpa [pathAuthOk] using h1
      rw [serializeUrl_some_none, parseUrl, parseScheme_append s _ hcheck]
      dsimp only
      rw [hlc]
      exact parseRest_round_noauth (some s) path q f hpath2 hq2 hss
  | none =>
    cases auth with
    | some a =>
      have ha2 : ∀ c ∈ a, authStop c = false := by
        intro c hc
        have h1 : (a.all noAuthStopB) = true := hauth
        have h0 := List.all_eq_true.mp h1 c hc
        simpa [noAuthStopB] using h0
      have hpa2 : path = [] ∨ ∃ pp, path = '/' :: pp := by
        rcases path with _ | ⟨c, cs⟩
        · exact Or.inl rfl
        · right
          have h1 : (match (c :: cs : List Char) with
              | [] => true | c :: _ => c == '/') = true := hpa
          have h2 : (c == '/') = true := h1
          rw [beq_iff_eq] at h2
          exact ⟨cs, by rw [h2]⟩
      have hps : parseScheme ('/' :: ('/' :: (a ++ (path ++ qfText q f)))) = none :=
        parseScheme_cons_none '/' _ (by decide) (by decide)
      rw [serializeUrl_none_some, parseUrl, hps]
      dsimp only
      exact parseRest_round_auth none a path q f ha2 hpath2 hq2 hpa2
    | none =>
      have hss : startsSlashSlash path = false := by
        have h1 : pathAuthOk ⟨none, none, path, q, f⟩ = true := hpa
        simpa [pathAuthOk] using h1
      have hps : parseScheme (path ++ qfText q f) = none := by
        have h1 : noSchemeLook ⟨none, none, path, q, f⟩ = true := hlook
        rcases hval : parseScheme (path ++ qfText q f) with _ | v
        · rfl
        · exfalso
          rw [noSchemeLook] at h1
          rw [hval] at h1
          simp at h1
      rw [serializeUrl_none_none, parseUrl, hps]
      dsimp only
      exact parseRest_round_noauth none path q f hpath2 hq2 hss

/-! ### The parser only produces canonical component values -/

theorem map_lc_all_scheme (s : List Char) (h : ∀ c ∈ s, isSchemeChar c = true) :
    ∀ c ∈ s.map lc, isSchemeChar c = true := by
  intro c hc
  rw [List.mem_map] at hc
  obtain ⟨d, hd, rfl⟩ := hc
  exact (schemeChar_facts d (mem_of_isSchemeChar (h d hd))).1

theorem map_lc_idem (s : List Char) (h : ∀ c ∈ s, isSchemeChar c = true) :
    (s.map lc).map lc = s.map lc := by
  induction s with
  | nil => rfl
  | cons c cs ih =>
    simp only [List.map_cons]
    rw [(schemeChar_facts c (mem_of_isSchemeChar
          (h c (List.mem_cons_self c cs)))).2.1]
    rw [ih (fun d hd => h d (List.mem_cons_of_mem _ hd))]

theorem schemeOkB_map_lc (pre : List Char) (h : schemeCheck pre = true) :
    schemeOkB (pre.map lc) = true := by
  obtain ⟨hhead, hall⟩ := (Bool.and_eq_true _ _).mp h
  have hall2 : ∀ c ∈ pre, isSchemeChar c = true := List.all_eq_true.mp hall
  rcases pre with _ | ⟨c, cs⟩
  · cases hhead
  · have hc : isAlphaChar c = true := hhead
    have hlcalpha : isAlphaChar (lc c) = true :=
      (schemeChar_facts c (mem_of_isSchemeChar
        (hall2 c (List.mem_cons_self c cs)))).2.2.1 hc
    simp only [schemeOkB, schemeCheck, List.map_cons]
    refine (Bool.and_eq_true _ _).mpr ⟨(Bool.and_eq_true _ _).mpr ⟨hlcalpha, ?_⟩, ?_⟩
    · apply List.all_eq_true.mpr
      intro d hd
      have hd2 : d ∈ (c :: cs).map lc := by simpa using hd
      exact map_lc_all_scheme (c :: cs) hall2 d hd2
    · have hidem := map_lc_idem (c :: cs) hall2
      simp only [List.map_cons] at hidem
      rw [beq_iff_eq]
      exact hidem

theorem canonicalB_intro (u : UrlModel)
    (h1 : (match u.scheme with | some s => schemeOkB s | none => true) = true)
    (h2 : (match u.authority with | some a => a.all noAuthStopB | none => true) = true)
    (h3 : u.path.all noQFB = true)
    (h4 : (match u.query with
           | some q => q.all (fun c => !(hashStop c)) | none => true) = true)
    (h5 : pathAuthOk u = true)
    (h6 : noSchemeLook u = true) :
    canonicalB u = true := by
  simp [canonicalB, h1, h2, h3, h4, h5, h6]

theorem parseQF_fst_all (r3 : List Char) :
    (match (parseQF r3).1 with
     | some q => q.all (fun c => !(hashStop c)) | none => true) = true := by
  rcases hq : (parseQF r3).1 with _ | qs
  · rfl
  · apply List.all_eq_true.mpr
    intro c hc
    have := parseQF_query_all r3 qs hq c hc
    simp [this]

theorem canonical_parseRest (sch : Option (List Char)) (r : List Char)
    (hs : (match sch with | some s => schemeOkB s | none => true) = true)
    (hlook : sch = none → startsSlashSlash r = false →
      (parseScheme r).isSome = false) :
    canonicalB (parseRest sch r) = true := by
  by_cases hss : startsSlashSlash r = true
  · -- authority present
    rcases r with _ | ⟨c1, _ | ⟨c2, rest⟩⟩
    · exact absurd hss (by simp [startsSlashSlash])
    · exact absurd hss (by simp [ss_single])
    · rw [ss_cons_cons] at hss
      obtain ⟨hc1, hc2⟩ := (Bool.and_eq_true _ _).mp hss
      rw [beq_iff_eq] at hc1 hc2
      subst hc1; subst hc2
      rw [parseRest, parseAuth_ss]
      dsimp only
      apply canonicalB_intro
      · exact hs
      · apply List.all_eq_true.mpr
        intro c hc
        have := splitUntil_fst_all authStop rest c hc
        simp [noAuthStopB, this]
      · apply List.all_eq_true.mpr
        intro c hc
        have := splitUntil_fst_all qfStop _ c hc
        simp [noQFB, this]
      · exact parseQF_fst_all _
      · -- pathAuthOk with authority some: path empty or absolute
        rcases splitUntil_snd_cases authStop rest with hnil | ⟨d, ds, hd, hds⟩
        · have hd2 : (splitOnAuth rest).2 = ([] : List Char) := hnil
          rw [pathAuthOk]
          dsimp only
          rw [hd2]
          rfl
        · have hd2 : (splitOnAuth rest).2 = d :: ds := hd
          rw [pathAuthOk]
          dsimp only
          rw [hd2]
          rcases (Bool.or_eq_true _ _).mp hds with hsl | hqf2
          · rcases (Bool.or_eq_true _ _).mp hsl with hsl | hsl
            · rw [beq_iff_eq] at hsl
              subst hsl
              have : qfStop '/' = false := by decide
              simp [splitOnQF, splitUntil, this]
            · have : qfStop d = true := by simp [qfStop, hsl]
              simp [splitOnQF, splitUntil, this]
          · have : qfStop d = true := by simp [qfStop, hqf2]
            simp [splitOnQF, splitUntil, this]
      · -- noSchemeLook: authority is present
        cases sch with
        | some s => rfl
        | none => rfl
  · have hssf : startsSlashSlash r = false := by simpa using hss
    rw [parseRest, parseAuth_not_ss r hssf]
    dsimp only
    have hPR : (splitOnQF r).1 ++ (splitOnQF r).2 = r := splitUntil_append_eq _ _
    apply canonicalB_intro
    · exact hs
    · rfl
    · apply List.all_eq_true.mpr
      intro c hc
      have := splitUntil_fst_all qfStop _ c hc
      simp [noQFB, this]
    · exact parseQF_fst_all _
    · rw [pathAuthOk]
      dsimp only
      cases hsp : startsSlashSlash (splitOnQF r).1
      · rfl
      · exfalso
        have h1 := ss_of_append_left _ (splitOnQF r).2 hsp
        rw [hPR] at h1
        rw [h1] at hssf
        cases hssf
    · cases sch with
      | some s => rfl
      | none =>
        rw [noSchemeLook]
        dsimp only
        have hrec : qfText (parseQF (splitOnQF r).2).1 (parseQF (splitOnQF r).2).2 =
            (splitOnQF r).2 :=
          parseQF_reconstruct _ (splitUntil_snd_cases qfStop r)
        rw [hrec, hPR, hlook rfl hssf]
        rfl

theorem canonical_parseUrl (l : List Char) : canonicalB (parseUrl l) = true := by
  rcases hps : parseScheme l with _ | ⟨s, r⟩
  · rw [parseUrl, hps]
    apply canonical_parseRest
    · rfl
    · intro _ _
      rw [hps]
      rfl
  · rw [parseUrl, hps]
    dsimp only
    have hsome : (parseScheme l).isSome = true := by rw [hps]; rfl
    obtain ⟨pre, r2, heq, hcheck, hval⟩ := parseScheme_some_ex l hsome
    rw [hps] at hval
    injection hval with hval2
    have hs2 : s = pre.map lc := congrArg Prod.fst hval2
    apply canonical_parseRest
    · rw [hs2]
      exact schemeOkB_map_lc pre hcheck
    · intro hcontra _
      cases hcontra

/-! ### Parsing a non-empty string gives a non-empty URL -/

theorem parseUrl_nonempty (l : List Char) (hl : l ≠ []) :
    urlIsEmptyB (parseUrl l) = false := by
  rcases hps : parseScheme l with _ | ⟨s, r⟩
  · rw [parseUrl, hps]
    dsimp only
    by_cases hss : startsSlashSlash l = true
    · have hpa : parseAuth l =
          (some (splitOnAuth (l.drop 2)).1, (splitOnAuth (l.drop 2)).2) := by
        simp [parseAuth, hss]
      simp [parseRest, urlIsEmptyB, hpa]
    · have hssf : startsSlashSlash l = false := by simpa using hss
      have hpa := parseAuth_not_ss l hssf
      rcases l with _ | ⟨c, cs⟩
      · exact absurd rfl hl
      · by_cases hqf : qfStop c = true
        · have hsplit : splitOnQF (c :: cs) = ([], c :: cs) := by
            simp [splitOnQF, splitUntil, hqf]
          have hc : c = '?' ∨ c = '#' := by
            simp [qfStop] at hqf
            tauto
          rcases hc with rfl | rfl
          · simp [parseRest, urlIsEmptyB, hpa, hsplit, parseQF]
          · simp [parseRest, urlIsEmptyB, hpa, hsplit, parseQF]
        · have hqff : qfStop c = false := by simpa using hqf
          have hsplit : splitOnQF (c :: cs) =
              (c :: (splitUntil qfStop cs).1, (splitUntil qfStop cs).2) := by
            simp [splitOnQF, splitUntil, hqff]
          simp [parseRest, urlIsEmptyB, hpa, hsplit]
  · rw [parseUrl, hps]
    dsimp only
    simp [parseRest, urlIsEmptyB]

/-! ### The two verifyUrl transforms: component behavior -/

theorem addSlash_scheme (u : UrlModel) : (addSlash u).scheme = u.scheme := by
  rw [addSlash]; split <;> rfl

theorem addSlash_authority (u : UrlModel) : (addSlash u).authority = u.authority := by
  rw [addSlash]; split <;> rfl

theorem addSlash_query (u : UrlModel) : (addSlash u).query = u.query := by
  rw [addSlash]; split <;> rfl

theorem addSlash_fragment (u : UrlModel) : (addSlash u).fragment = u.fragment := by
  rw [addSlash]; split <;> rfl

theorem addSlash_path_cases (u : UrlModel) :
    (addSlash u).path = u.path ∨ (addSlash u).path = u.path ++ ['/'] := by
  rw [addSlash]; split
  · right; rfl
  · left; rfl

theorem upgrade_authority (u : UrlModel) : (httpsUpgrade u).authority = u.authority := by
  rw [httpsUpgrade]; split <;> rfl

theorem upgrade_path (u : UrlModel) : (httpsUpgrade u).path = u.path := by
  rw [httpsUpgrade]; split <;> rfl

theorem upgrade_query (u : UrlModel) : (httpsUpgrade u).query = u.query := by
  rw [httpsUpgrade]; split <;> rfl

theorem upgrade_fragment (u : UrlModel) : (httpsUpgrade u).fragment = u.fragment := by
  rw [httpsUpgrade]; split <;> rfl

theorem addSlash_path_endsSlash (u : UrlModel) (h : urlIsEmptyB u = false) :
    endsSlash (addSlash u).path = true := by
  rw [addSlash]
  split
  · next hcond =>
    dsimp only
    rw [endsSlash, List.getLast?_concat]
    rfl
  · next hcond =>
    rw [h] at hcond
    simp at hcond
    simpa [endsSlash] using hcond

theorem addSlash_nonempty (u : UrlModel) (h : urlIsEmptyB u = false) :
    urlIsEmptyB (addSlash u) = false := by
  rw [addSlash]
  split
  · next hcond =>
    rw [urlIsEmptyB]
    dsimp only
    have : (u.path ++ ['/']).isEmpty = false := by
      simp [List.isEmpty_iff]
    rw [this]
    simp
  · exact h

theorem upgrade_isEmpty (u : UrlModel) : urlIsEmptyB (httpsUpgrade u) = urlIsEmptyB u := by
  rw [httpsUpgrade]
  split
  · next hcond =>
    obtain ⟨h1, h2⟩ := (Bool.and_eq_true _ _).mp hcond
    rw [beq_iff_eq] at h2
    rw [urlIsEmptyB, urlIsEmptyB]
    dsimp only
    rw [h2]
    rfl
  · rfl

theorem upgrade_scheme_eq (u : UrlModel) (h : urlIsEmptyB u = false) :
    (httpsUpgrade u).scheme =
      (if u.scheme = some httpChars then some httpsChars else u.scheme) := by
  rw [httpsUpgrade]
  split
  · next hcond =>
    obtain ⟨_, h2⟩ := (Bool.and_eq_true _ _).mp hcond
    rw [beq_iff_eq] at h2
    rw [if_pos h2]
  · next hcond =>
    rw [h] at hcond
    simp at hcond
    rw [if_neg (by simpa using hcond)]

theorem upgrade_scheme_not_http (u : UrlModel) (h : urlIsEmptyB u = false) :
    ((httpsUpgrade u).scheme == some httpChars) = false := by
  rw [upgrade_scheme_eq u h]
  by_cases hs : u.scheme = some httpChars
  · rw [if_pos hs]
    decide
  · rw [if_neg hs]
    simpa using hs

/-! ### Canonicality is preserved by the transforms -/

theorem canonical_addSlash (u : UrlModel) (h : canonicalB u = true) :
    canonicalB (addSlash u) = true := by
  rw [addSlash]
  split
  · next hcond =>
    obtain ⟨hne, hslash⟩ := (Bool.and_eq_true _ _).mp hcond
    obtain ⟨sch, auth, path, q, f⟩ := u
    simp only at hne hslash
    simp only [canonicalB, Bool.and_eq_true] at h
    obtain ⟨⟨⟨⟨⟨hsch, hauth⟩, hpath⟩, hq⟩, hpa⟩, hlook⟩ := h
    apply canonicalB_intro
    · exact hsch
    · exact hauth
    · dsimp only
      apply List.all_eq_true.mpr
      intro c hc
      rcases List.mem_append.mp hc with hc | hc
      · exact List.all_eq_true.mp hpath c hc
      · simp at hc
        subst hc
        decide
    · exact hq
    · -- pathAuthOk for path ++ ['/']
      rw [pathAuthOk]
      dsimp only
      cases auth with
      | some a =>
        rw [pathAuthOk] at hpa
        dsimp only at hpa
        rcases path with _ | ⟨c, cs⟩
        · rfl
        · rw [List.cons_append]
          exact hpa
      | none =>
        rw [pathAuthOk] at hpa
        dsimp only at hpa
        have hpss : startsSlashSlash path = false := by simpa using hpa
        rcases path with _ | ⟨c, cs⟩
        · simp [startsSlashSlash]
        · rcases cs with _ | ⟨d, ds⟩
          · -- [c] ++ ['/'] = [c, '/']; c ≠ '/' since endsSlash [c] = false
            have hcslash : (c == '/') = false := by
              rw [endsSlash] at hslash
              simp only [Bool.not_eq_true'] at hslash
              simpa [List.getLast?] using hslash
            rw [show ([c] ++ ['/'] : List Char) = [c, '/'] from rfl]
            rw [ss_cons_cons, hcslash, Bool.false_and]
            rfl
          · rw [List.cons_append, List.cons_append, ss_cons_cons]
            rw [ss_cons_cons] at hpss
            simp [hpss]
    · -- noSchemeLook for path ++ ['/']
      cases sch with
      | some s => cases auth with
        | some a => rfl
        | none => rfl
      | none => cases auth with
        | some a => rfl
        | none =>
          rw [noSchemeLook] at hlook ⊢
          dsimp only at hlook ⊢
          simp only [Bool.not_eq_true'] at hlook ⊢
          have hnone : parseScheme (path ++ qfText q f) = none := by
            rcases hval : parseScheme (path ++ qfText q f) with _ | v
            · rfl
            · rw [hval] at hlook; cases hlook
          have h2 := parseScheme_insert_slash path (qfText q f) hnone
          rw [show (path ++ ['/']) ++ qfText q f = path ++ '/' :: qfText q f by
            simp]
          rw [h2]
          rfl
  · exact h

theorem canonical_upgrade (u : UrlModel) (h : canonicalB u = true) :
    canonicalB (httpsUpgrade u) = true := by
  rw [httpsUpgrade]
  split
  · next hcond =>
    obtain ⟨sch, auth, path, q, f⟩ := u
    simp only [canonicalB, Bool.and_eq_true] at h
    obtain ⟨⟨⟨⟨⟨hsch, hauth⟩, hpath⟩, hq⟩, hpa⟩, hlook⟩ := h
    apply canonicalB_intro
    · dsimp only
      decide
    · exact hauth
    · exact hpath
    · exact hq
    · rw [pathAuthOk] at hpa ⊢
      exact hpa
    · cases auth with
      | some a => rfl
      | none => rfl
  · exact h

/-! ### verifyUrl: central facts -/

theorem verify_parse (l : List Char) :
    parseUrl (verifyUrlCore l) = httpsUpgrade (addSlash (parseUrl l)) :=
  parse_serialize _ (canonical_upgrade _ (canonical_addSlash _ (canonical_parseUrl l)))

theorem verify_fix (u : UrlModel)
    (hpath : endsSlash u.path = true)
    (hsch : (u.scheme == some httpChars) = false) :
    httpsUpgrade (addSlash u) = u := by
  have h1 : addSlash u = u := by
    simp [addSlash, hpath]
  rw [h1]
  simp [httpsUpgrade, hsch]

theorem verifyUrlCore_idem (l : List Char) :
    verifyUrlCore (verifyUrlCore l) = verifyUrlCore l := by
  by_cases hl : l = []
  · subst hl; rfl
  · have hne := parseUrl_nonempty l hl
    have hne1 : urlIsEmptyB (addSlash (parseUrl l)) = false := addSlash_nonempty _ hne
    have hne2 : urlIsEmptyB (httpsUpgrade (addSlash (parseUrl l))) = false := by
      rw [upgrade_isEmpty]; exact hne1
    have hpath1 : endsSlash (addSlash (parseUrl l)).path = true :=
      addSlash_path_endsSlash _ hne
    have hpath2 : endsSlash (httpsUpgrade (addSlash (parseUrl l))).path = true := by
      rw [upgrade_path]; exact hpath1
    have hsch2 : ((httpsUpgrade (addSlash (parseUrl l))).scheme == some httpChars)
        = false := upgrade_scheme_not_http _ hne1
    have hcan : canonicalB (httpsUpgrade (addSlash (parseUrl l))) = true :=
      canonical_upgrade _ (canonical_addSlash _ (canonical_parseUrl l))
    show verifyUrlCore (serializeUrl (httpsUpgrade (addSlash (parseUrl l)))) = _
    rw [verifyUrlCore, parse_serialize _ hcan, verify_fix _ hpath2 hsch2]
    rfl

theorem verifyUrl_idem_str (x : String) : verifyUrl (verifyUrl x) = verifyUrl x :=
  congrArg String.mk (verifyUrlCore_idem x.data)

theorem data_ne_of_ne (x : String) (hx : x ≠ "") : x.data ≠ [] :=
  fun h => hx (String.ext h)

theorem verify_getLast (x : String) (hx : x ≠ "") :
    (parseUrl (verifyUrl x).data).path.getLast? = some '/' := by
  have hne := parseUrl_nonempty x.data (data_ne_of_ne x hx)
  show (parseUrl (verifyUrlCore x.data)).path.getLast? = some '/'
  rw [verify_parse x.data, upgrade_path]
  have h1 := addSlash_path_endsSlash (parseUrl x.data) hne
  rw [endsSlash] at h1
  exact beq_iff_eq.mp h1

theorem verify_scheme (x : String) (hx : x ≠ "") :
    (parseUrl (verifyUrl x).data).scheme =
      (if (parseUrl x.data).scheme = some httpChars then some httpsChars
       else (parseUrl x.data).scheme) := by
  have hne := parseUrl_nonempty x.data (data_ne_of_ne x hx)
  have hne1 := addSlash_nonempty _ hne
  show (parseUrl (verifyUrlCore x.data)).scheme = _
  rw [verify_parse x.data, upgrade_scheme_eq _ hne1, addSlash_scheme]

theorem verify_query (x : String) :
    (parseUrl (verifyUrl x).data).query = (parseUrl x.data).query := by
  show (parseUrl (verifyUrlCore x.data)).query = _
  rw [verify_parse x.data, upgrade_query, addSlash_query]

theorem verify_fragment (x : String) :
    (parseUrl (verifyUrl x).data).fragment = (parseUrl x.data).fragment := by
  show (parseUrl (verifyUrlCore x.data)).fragment = _
  rw [verify_parse x.data, upgrade_fragment, addSlash_fragment]

theorem verify_path_cases (x : String) :
    (parseUrl (verifyUrl x).data).path = (parseUrl x.data).path ∨
    (parseUrl (verifyUrl x).data).path = (parseUrl x.data).path ++ ['/'] := by
  show (parseUrl (verifyUrlCore x.data)).path = _ ∨
    (parseUrl (verifyUrlCore x.data)).path = _
  rw [verify_parse x.data, upgrade_path]
  exact addSlash_path_cases _

theorem getLast_append_ne (a b : List Char) (hb : b ≠ []) :
    (a ++ b).getLast? = b.getLast? := by
  rw [List.getLast?_append]
  cases hbl : b.getLast? with
  | none => exact absurd (List.getLast?_eq_none_iff.mp hbl) hb
  | some c => rfl

theorem addSlash_path_app (u : UrlModel) (hne : urlIsEmptyB u = false)
    (hslash : endsSlash u.path = false) :
    (addSlash u).path = u.path ++ ['/'] := by
  simp [addSlash, hne, hslash]

theorem authText_congr (u v : UrlModel) (h : u.authority = v.authority) :
    authText u = authText v := by
  rw [authText, authText, h]

theorem schemeText_congr (u v : UrlModel) (h : u.scheme = v.scheme) :
    schemeText u = schemeText v := by
  rw [schemeText, schemeText, h]

/-! ### Claim theorems -/

/-- C1: `verifyUrl` (the spec's `normalizeUrl`) is idempotent: applying it
twice gives the same string as applying it once, for every input string. -/
theorem verifyUrl_idempotent (x : String) : verifyUrl (verifyUrl x) = verifyUrl x :=
  verifyUrl_idem_str x

/-- C2: `verifyUrl` maps the empty string to the empty string; for every
non-empty input the resulting URL's path component ends with `/`; the scheme
is rewritten to `https` exactly when the parsed scheme is `http` and is passed
through unchanged otherwise; and
`verifyUrl "http://example.com" = "https://example.com/"`. -/
theorem verifyUrl_contract (x : String) (hx : x ≠ "") :
    verifyUrl "" = "" ∧
    (parseUrl (verifyUrl x).data).path.getLast? = some '/' ∧
    (parseUrl (verifyUrl x).data).scheme =
      (if (parseUrl x.data).scheme = some httpChars then some httpsChars
       else (parseUrl x.data).scheme) ∧
    verifyUrl "http://example.com" = "https://example.com/" :=
  ⟨rfl, verify_getLast x hx, verify_scheme x hx, by decide⟩

/-- Witness for C2 at the concrete input `"http://example.com"`. -/
theorem verifyUrl_contract_witness :
    ("http://example.com" : String) ≠ "" ∧
    (verifyUrl "" = "" ∧
     (parseUrl (verifyUrl "http://example.com").data).path.getLast? = some '/' ∧
     (parseUrl (verifyUrl "http://example.com").data).scheme =
       (if (parseUrl ("http://example.com" : String).data).scheme = some httpChars
        then some httpsChars
        else (parseUrl ("http://example.com" : String).data).scheme) ∧
     verifyUrl "http://example.com" = "https://example.com/") :=
  ⟨by decide, verifyUrl_contract "http://example.com" (by decide)⟩

/-- C5: loading a store whose stored paste-service kind is unrecognized
yields the default kind `Mclogs` and an empty custom paste base URL. -/
theorem loadSettings_unrecognized (s : Store)
    (h : decodePasteType s.pastebinType = none) :
    (loadSettings s).pasteType = PasteType.Mclogs ∧
    (loadSettings s).baseURL = "" := by
  constructor
  · show (match decodePasteType s.pastebinType with
      | some t => t | none => .Mclogs) = _
    rw [h]
  · show (match decodePasteType s.pastebinType with
      | some _ => s.pastebinCustomAPIBase | none => "") = _
    rw [h]

/-- Witness for C5 at a store holding the unrecognized paste-type code 99. -/
theorem loadSettings_unrecognized_witness :
    decodePasteType (Store.mk 99 "u" "c" "m" "r" "l" "k" "t" "a").pastebinType = none ∧
    ((loadSettings (Store.mk 99 "u" "c" "m" "r" "l" "k" "t" "a")).pasteType =
        PasteType.Mclogs ∧
     (loadSettings (Store.mk 99 "u" "c" "m" "r" "l" "k" "t" "a")).baseURL = "") :=
  ⟨by decide, loadSettings_unrecognized _ (by decide)⟩

/-- C6: `apply` is total and always succeeds: it returns `true`, stores the
paste kind, custom paste base URL, client id, API key, token and user agent
verbatim, and applies `verifyUrl` exactly to the three Minecraft-service URL
overrides. -/
theorem apply_total_verbatim (f : FormFields) (s : Store) :
    (apply f s).1 = true ∧
    (apply f s).2.pastebinType = encodePasteType f.pasteType ∧
    (apply f s).2.pastebinCustomAPIBase = f.baseURL ∧
    (apply f s).2.msaClientIDOverride = f.msaClientID ∧
    (apply f s).2.metaURLOverride = verifyUrl f.metaURL ∧
    (apply f s).2.minecraftResourceURLOverride = verifyUrl f.resourceURL ∧
    (apply f s).2.minecraftLibrariesURLOverride = verifyUrl f.librariesURL ∧
    (apply f s).2.flameKeyOverride = f.flameKey ∧
    (apply f s).2.modrinthToken = f.modrinthToken ∧
    (apply f s).2.userAgentOverride = f.userAgent :=
  ⟨rfl, rfl, rfl, rfl, rfl, rfl, rfl, rfl, rfl, rfl⟩

/-- C7: on a store produced by a previous apply, applying right after loading
leaves the three stored Minecraft-service URL overrides unchanged. -/
theorem apply_load_fixed_point (f : FormFields) (s0 : Store) :
    (applySettings (loadSettings (applySettings f s0)) (applySettings f s0)).metaURLOverride
      = (applySettings f s0).metaURLOverride ∧
    (applySettings (loadSettings (applySettings f s0))
        (applySettings f s0)).minecraftResourceURLOverride
      = (applySettings f s0).minecraftResourceURLOverride ∧
    (applySettings (loadSettings (applySettings f s0))
        (applySettings f s0)).minecraftLibrariesURLOverride
      = (applySettings f s0).minecraftLibrariesURLOverride :=
  ⟨verifyUrl_idem_str f.metaURL, verifyUrl_idem_str f.resourceURL,
   verifyUrl_idem_str f.librariesURL⟩

/-- C8: the refresh control steps Idle → (click) → InFlight, each outcome
returns it to Idle, and clicking while InFlight (button disabled) changes
nothing: the state is identical and no further request is started. -/
theorem refresh_state_machine (st : PageState) (s : Store) (r : String) :
    clickApplyProperties { st with btnEnabled := false } =
      { st with btnEnabled := false } ∧
    (clickApplyProperties { st with btnEnabled := true }).btnEnabled = false ∧
    (clickApplyProperties { st with btnEnabled := true }).started =
      st.started + 1 ∧
    (onSucceededApplyProperties st s).btnEnabled = true ∧
    (onFailedApplyProperties st r).btnEnabled = true :=
  ⟨rfl, rfl, rfl, rfl, rfl⟩

/-- C9: a failure outcome leaves the form fields untouched and re-enables the
control; only the success outcome reloads the form from the store. -/
theorem refresh_failure_frame (st : PageState) (r : String) (s : Store) :
    (onFailedApplyProperties st r).fields = st.fields ∧
    (onFailedApplyProperties st r).btnEnabled = true ∧
    (onSucceededApplyProperties st s).fields = loadSettings s :=
  ⟨rfl, rfl, rfl⟩

/-- C3 counterexample: `"HTTPS://example.com"` is non-empty, its path has no
trailing slash and its scheme parses as `https` (not `http`, so the claim
allows no scheme rewrite), yet the result `"https://example.com/"` is not the
input with one `/` inserted at any position: the scheme was also lowercased. -/
theorem verifyUrl_append_only_cex :
    verifyUrl "HTTPS://example.com" = "https://example.com/" ∧
    ("HTTPS://example.com" : String) ≠ "" ∧
    (parseUrl ("HTTPS://example.com" : String).data).path.getLast? ≠ some '/' ∧
    (parseUrl ("HTTPS://example.com" : String).data).scheme = some httpsChars ∧
    ((List.range 20).all fun i =>
      !((verifyUrl "HTTPS://example.com").data ==
        ("HTTPS://example.com" : String).data.take i ++
          '/' :: ("HTTPS://example.com" : String).data.drop i)) = true := by
  refine ⟨by decide, by decide, by decide, by decide, by decide⟩

/-- C3 amended: for a non-empty input in canonical serialized form (it equals
its own parsed-and-serialized text, so in particular the scheme part is
already lowercase) whose path lacks a trailing slash, `verifyUrl` returns
exactly the input with one `/` appended to the path component, with the
`scheme:` head rewritten from `http:` to `https:` when present, and nothing
else changed. -/
theorem verifyUrl_append_only_amended (x : String) (hx : x ≠ "")
    (hslash : endsSlash (parseUrl x.data).path = false)
    (hcanon : String.mk (serializeUrl (parseUrl x.data)) = x) :
    x.data = schemeText (parseUrl x.data) ++ authText (parseUrl x.data) ++
      (parseUrl x.data).path ++
      qfText (parseUrl x.data).query (parseUrl x.data).fragment ∧
    (verifyUrl x).data =
      (if (parseUrl x.data).scheme = some httpChars then httpsChars ++ [':']
       else schemeText (parseUrl x.data)) ++ authText (parseUrl x.data) ++
      ((parseUrl x.data).path ++ ['/']) ++
      qfText (parseUrl x.data).query (parseUrl x.data).fragment := by
  have hne := parseUrl_nonempty x.data (data_ne_of_ne x hx)
  have hne1 := addSlash_nonempty _ hne
  constructor
  · have h0 : x.data = serializeUrl (parseUrl x.data) := by
      conv_lhs => rw [← hcanon]
    exact h0
  · show verifyUrlCore x.data = _
    rw [verifyUrlCore, serializeUrl]
    have hpath : (httpsUpgrade (addSlash (parseUrl x.data))).path =
        (parseUrl x.data).path ++ ['/'] := by
      rw [upgrade_path, addSlash_path_app _ hne hslash]
    have hau : authText (httpsUpgrade (addSlash (parseUrl x.data))) =
        authText (parseUrl x.data) :=
      authText_congr _ _ (by rw [upgrade_authority, addSlash_authority])
    have hqq : (httpsUpgrade (addSlash (parseUrl x.data))).query =
        (parseUrl x.data).query := by
      rw [upgrade_query, addSlash_query]
    have hff : (httpsUpgrade (addSlash (parseUrl x.data))).fragment =
        (parseUrl x.data).fragment := by
      rw [upgrade_fragment, addSlash_fragment]
    have hsch : schemeText (httpsUpgrade (addSlash (parseUrl x.data))) =
        (if (parseUrl x.data).scheme = some httpChars then httpsChars ++ [':']
         else schemeText (parseUrl x.data)) := by
      have h2 : (httpsUpgrade (addSlash (parseUrl x.data))).scheme =
          (if (parseUrl x.data).scheme = some httpChars then some httpsChars
           else (parseUrl x.data).scheme) := by
        rw [upgrade_scheme_eq _ hne1, addSlash_scheme]
      rw [schemeText, h2]
      by_cases hs : (parseUrl x.data).scheme = some httpChars
      · rw [if_pos hs, if_pos hs]
      · rw [if_neg hs, if_neg hs, schemeText]
    rw [hpath, hau, hqq, hff, hsch]

/-- Witness for the amended C3 at `"http://example.com/sub?q=1"`. -/
theorem verifyUrl_append_only_amended_witness :
    ("http://example.com/sub?q=1" : String) ≠ "" ∧
    endsSlash (parseUrl ("http://example.com/sub?q=1" : String).data).path = false ∧
    String.mk (serializeUrl (parseUrl ("http://example.com/sub?q=1" : String).data)) =
      "http://example.com/sub?q=1" ∧
    (("http://example.com/sub?q=1" : String).data =
      schemeText (parseUrl ("http://example.com/sub?q=1" : String).data) ++
      authText (parseUrl ("http://example.com/sub?q=1" : String).data) ++
      (parseUrl ("http://example.com/sub?q=1" : String).data).path ++
      qfText (parseUrl ("http://example.com/sub?q=1" : String).data).query
        (parseUrl ("http://example.com/sub?q=1" : String).data).fragment ∧
    (verifyUrl "http://example.com/sub?q=1").data =
      (if (parseUrl ("http://example.com/sub?q=1" : String).data).scheme =
          some httpChars then httpsChars ++ [':']
       else schemeText (parseUrl ("http://example.com/sub?q=1" : String).data)) ++
      authText (parseUrl ("http://example.com/sub?q=1" : String).data) ++
      ((parseUrl ("http://example.com/sub?q=1" : String).data).path ++ ['/']) ++
      qfText (parseUrl ("http://example.com/sub?q=1" : String).data).query
        (parseUrl ("http://example.com/sub?q=1" : String).data).fragment) :=
  ⟨by decide, by decide, by decide,
   verifyUrl_append_only_amended "http://example.com/sub?q=1"
     (by decide) (by decide) (by decide)⟩

/-- C4 counterexample: applying form fields whose metadata URL is
`"https://example.com/api?x=1"` (accepted by the `https?://.+` validator)
stores `"https://example.com/api/?x=1"`, which is non-empty and does not end
with `/`: the slash is appended to the path, before the query. -/
theorem url_override_invariant_cex :
    (applySettings
        (FormFields.mk PasteType.Mclogs "" "" "https://example.com/api?x=1"
          "" "" "" "" "")
        (Store.mk 0 "" "" "" "" "" "" "" "")).metaURLOverride =
      "https://example.com/api/?x=1" ∧
    (applySettings
        (FormFields.mk PasteType.Mclogs "" "" "https://example.com/api?x=1"
          "" "" "" "" "")
        (Store.mk 0 "" "" "" "" "" "" "" "")).metaURLOverride ≠ "" ∧
    (applySettings
        (FormFields.mk PasteType.Mclogs "" "" "https://example.com/api?x=1"
          "" "" "" "" "")
        (Store.mk 0 "" "" "" "" "" "" "" "")).metaURLOverride.data.getLast? ≠
      some '/' := by
  refine ⟨by decide, by decide, by decide⟩

theorem verify_disj (m : String) :
    verifyUrl m = "" ∨
    ((parseUrl (verifyUrl m).data).path.getLast? = some '/' ∧
     ((parseUrl m.data).scheme = some httpChars →
       (parseUrl (verifyUrl m).data).scheme = some httpsChars)) := by
  by_cases hm : m = ""
  · subst hm; left; rfl
  · right
    refine ⟨verify_getLast m hm, fun hs => ?_⟩
    rw [verify_scheme m hm, if_pos hs]

/-- C4 amended: after every apply, each of the three stored URL overrides is
either empty, or its path component ends with `/` and its scheme is `https`
whenever the input scheme was `http` (the stored string itself need not end
with `/`: a query or fragment may follow the path). -/
theorem url_override_invariant_amended (f : FormFields) (s : Store) :
    ((applySettings f s).metaURLOverride = "" ∨
     ((parseUrl (applySettings f s).metaURLOverride.data).path.getLast? =
        some '/' ∧
      ((parseUrl f.metaURL.data).scheme = some httpChars →
        (parseUrl (applySettings f s).metaURLOverride.data).scheme =
          some httpsChars))) ∧
    ((applySettings f s).minecraftResourceURLOverride = "" ∨
     ((parseUrl (applySettings f s).minecraftResourceURLOverride.data).path.getLast? =
        some '/' ∧
      ((parseUrl f.resourceURL.data).scheme = some httpChars →
        (parseUrl (applySettings f s).minecraftResourceURLOverride.data).scheme =
          some httpsChars))) ∧
    ((applySettings f s).minecraftLibrariesURLOverride = "" ∨
     ((parseUrl (applySettings f s).minecraftLibrariesURLOverride.data).path.getLast? =
        some '/' ∧
      ((parseUrl f.librariesURL.data).scheme = some httpChars →
        (parseUrl (applySettings f s).minecraftLibrariesURLOverride.data).scheme =
          some httpsChars))) :=
  ⟨verify_disj f.metaURL, verify_disj f.resourceURL, verify_disj f.librariesURL⟩

/-- C10 counterexample: `"https://example.com/a?x=/"` has a non-empty query,
yet the returned string ends with `/` (the query itself ends with `/`), so
"the returned string does not end with `/`" fails for some URLs with a
non-empty query or fragment. -/
theorem query_fragment_cex :
    ("https://example.com/a?x=/" : String) ≠ "" ∧
    (parseUrl ("https://example.com/a?x=/" : String).data).query.getD [] ≠ [] ∧
    verifyUrl "https://example.com/a?x=/" = "https://example.com/a/?x=/" ∧
    (verifyUrl "https://example.com/a?x=/").data.getLast? = some '/' := by
  refine ⟨by decide, by decide, by decide, by decide⟩

theorem qfText_ne (q f : Option (List Char))
    (h : q.getD [] ≠ [] ∨ f.getD [] ≠ []) : qfText q f ≠ [] := by
  cases q with
  | some qs => simp [qfText]
  | none =>
    cases f with
    | some fs => simp [qfText]
    | none => simp at h

/-- C10 amended: `verifyUrl` appends the trailing slash to the path component
only and preserves the query and fragment; hence for every URL with a
non-empty query or fragment whose serialized query/fragment tail does not
itself end in `/` (for example `"https://example.com/api?x=1"`), the returned
string does not end with `/`. -/
theorem query_fragment_preserved (x : String)
    (h1 : (parseUrl x.data).query.getD [] ≠ [] ∨
          (parseUrl x.data).fragment.getD [] ≠ [])
    (h2 : (qfText (parseUrl x.data).query (parseUrl x.data).fragment).getLast? ≠
          some '/') :
    (parseUrl (verifyUrl x).data).query = (parseUrl x.data).query ∧
    (parseUrl (verifyUrl x).data).fragment = (parseUrl x.data).fragment ∧
    ((parseUrl (verifyUrl x).data).path = (parseUrl x.data).path ∨
     (parseUrl (verifyUrl x).data).path = (parseUrl x.data).path ++ ['/']) ∧
    (verifyUrl x).data.getLast? ≠ some '/' := by
  refine ⟨verify_query x, verify_fragment x, verify_path_cases x, ?_⟩
  show (verifyUrlCore x.data).getLast? ≠ some '/'
  rw [verifyUrlCore, serializeUrl]
  have hqq : (httpsUpgrade (addSlash (parseUrl x.data))).query =
      (parseUrl x.data).query := by
    rw [upgrade_query, addSlash_query]
  have hff : (httpsUpgrade (addSlash (parseUrl x.data))).fragment =
      (parseUrl x.data).fragment := by
    rw [upgrade_fragment, addSlash_fragment]
  rw [hqq, hff]
  have hne : qfText (parseUrl x.data).query (parseUrl x.data).fragment ≠ [] :=
    qfText_ne _ _ h1
  rw [getLast_append_ne _ _ hne]
  exact h2

/-- Witness for the amended C10 at `"https://example.com/api?x=1"`. -/
theorem query_fragment_preserved_witness :
    ((parseUrl ("https://example.com/api?x=1" : String).data).query.getD [] ≠ [] ∨
     (parseUrl ("https://example.com/api?x=1" : String).data).fragment.getD [] ≠
       []) ∧
    ((qfText (parseUrl ("https://example.com/api?x=1" : String).data).query
        (parseUrl ("https://example.com/api?x=1" : String).data).fragment).getLast?
      ≠ some '/') ∧
    ((parseUrl (verifyUrl "https://example.com/api?x=1").data).query =
      (parseUrl ("https://example.com/api?x=1" : String).data).query ∧
     (parseUrl (verifyUrl "https://example.com/api?x=1").data).fragment =
      (parseUrl ("https://example.com/api?x=1" : String).data).fragment ∧
     ((parseUrl (verifyUrl "https://example.com/api?x=1").data).path =
        (parseUrl ("https://example.com/api?x=1" : String).data).path ∨
      (parseUrl (verifyUrl "https://example.com/api?x=1").data).path =
        (parseUrl ("https://example.com/api?x=1" : String).data).path ++ ['/']) ∧
     (verifyUrl "https://example.com/api?x=1").data.getLast? ≠ some '/') :=
  ⟨by decide, by decide,
   query_fragment_preserved "https://example.com/api?x=1" (by decide) (by decide)⟩

end APIPageModel
